import Mathlib

/-!
Verification development for the moshi-typescript tensor and streaming-transformer
core.  The definitions below are shallow embeddings of the TypeScript sources:

* `TensorUtils.*`          — the legacy tensor helpers of the deprecated transformer
                             module (`src/unnamed/part_001`);
* `ServerTensorUtils.*`    — the Node server helpers (`src/server/src/transformers/index.ts`);
* `WebTensorUtils.*`       — the browser client helpers (`src/client/src/transformers/index.ts`,
                             class `TensorUtils` there; renamed here to avoid a clash);
* `TransformerState`, `NodeStreamingState.reset`, `PositionalEmbedding.createSinEmbedding`,
  `StreamingTransformer.forward`, `ProjectedTransformer` — the streaming shell and its
  wrapper from `src/unnamed/part_001`.

Numbers are modelled exactly: JavaScript `number` element data becomes an arbitrary
`Field α` (instantiated at `ℚ` for concrete evaluation and at `ℝ` where the
transcendental `Math.sin` / `Math.cos` / `Math.pow` matter, which are threaded through
as explicit function parameters `sinf`, `cosf`, `powf`).  Shapes that the sources
treat as arbitrary JS numbers (construction and reshape requests) are modelled as
`List Int` / `List ℚ`; shapes of well-formed tensors flowing through the pipeline are
`List Nat`.  Typed-array allocation and write loops in which every destination index
is written exactly once are translated to their closed form over `List.range`.
-/

namespace Moshi

/-- Model of the tensor value: a flat data buffer plus a shape.  The `device` and
`dtype` tags carried by the sources never influence the claims under study and are
omitted. -/
structure Tensor (α : Type) where
  data : List α
  shape : List Nat
deriving Repr, DecidableEq

/-- A tensor is well formed when its buffer length is the product of its shape,
the invariant stated by the spec's data model. -/
def Tensor.wf (t : Tensor α) : Prop := t.data.length = t.shape.prod

/-! Helper lemmas about `List.range`-generated buffers and flat-index arithmetic. -/

theorem getD_range_map (f : Nat → α) (n k : Nat) (d : α) (h : k < n) :
    ((List.range n).map f).getD k d = f k := by
  rw [List.getD_eq_getElem ((List.range n).map f) d (by simpa using h)]
  simp

theorem range_map_getD (l : List α) (d : α) :
    (List.range l.length).map (fun i => l.getD i d) = l := by
  apply List.ext_getElem
  · simp
  · intro i h1 h2
    simp only [List.getElem_map, List.getElem_range]
    exact List.getD_eq_getElem l d h2

theorem enc_div {b B : Nat} (a : Nat) (hb : b < B) : (a * B + b) / B = a := by
  have hB : 0 < B := by omega
  rw [Nat.add_comm, Nat.mul_comm, Nat.add_mul_div_left _ _ hB, Nat.div_eq_of_lt hb,
    Nat.zero_add]

theorem enc_mod {b B : Nat} (a : Nat) (hb : b < B) : (a * B + b) % B = b := by
  rw [Nat.add_comm, Nat.mul_comm, Nat.add_mul_mod_self_left, Nat.mod_eq_of_lt hb]

theorem enc3_lt {t c T C : Nat} (ht : t < T) (hc : c < C) : t * C + c < T * C :=
  calc t * C + c < t * C + C := by omega
  _ = (t + 1) * C := by ring
  _ ≤ T * C := Nat.mul_le_mul_right C ht

/-- Left fold of multiplication starting at `a` equals `a` times the product; the JS
sources compute sizes with `reduce((acc, dim) => acc * dim, 1)`. -/
theorem foldl_mul_eq_prod {M : Type} [CommMonoid M] (l : List M) (a : M) :
    l.foldl (· * ·) a = a * l.prod := by
  induction l generalizing a with
  | nil => simp
  | cons x xs ih => simp [ih (a * x), List.prod_cons, mul_assoc]

/-! IEEE-754 binary64 model.  The JS numbers flowing through the reshape
inference are doubles, and the division `actualSize / knownSize` together with
the subsequent product check is sensitive to rounding (for example
`49 * (1 / 49) !== 1`), so these operations are modelled with explicit rounding
to 53-bit significands rather than with exact rationals. -/

/-- Round a rational to the nearest integer, ties to even — the IEEE rounding of
a value already scaled into significand position. -/
def rneInt (q : ℚ) : ℤ :=
  let f := ⌊q⌋
  if q - f < 1 / 2 then f
  else if 1 / 2 < q - f then f + 1
  else if f % 2 = 0 then f else f + 1

/-- The value of the IEEE-754 binary64 double nearest to `q` (round to nearest,
ties to even), as an exact rational: the significand is scaled to 53 bits at
exponent `max ⌊log₂ |q|⌋ (-1022)` (the clamp reproduces the fixed subnormal
quantisation near zero) and rounded with `rneInt`.  Overflow to `±Infinity`
(magnitudes near 2^1024) is outside the model; every quantity reachable in the
claims lies far below it. -/
def roundDouble (q : ℚ) : ℚ :=
  if q = 0 then 0
  else
    let e : ℤ := max (Int.log 2 |q|) (-1022)
    let m : ℤ := rneInt (|q| * (2 : ℚ) ^ (52 - e))
    (if q < 0 then -1 else 1) * (m : ℚ) * (2 : ℚ) ^ (e - 52)

/-- JS double multiplication: the exact product, rounded to binary64. -/
def dmul (a b : ℚ) : ℚ := roundDouble (a * b)

/-- JS double division: the exact quotient, rounded to binary64 (the
divisor-zero case, where JS produces `Infinity`/`NaN`, is guarded at the use
site). -/
def ddiv (a b : ℚ) : ℚ := roundDouble (a / b)

namespace TensorUtils

/-- Model of `TensorUtils.zeros` (and of `ServerTensorUtils.zeros`, which differs
only in the element type of the allocated typed array): the size is the plain fold
product of the requested dimensions with no validation of individual entries; the
only failure is the JS `RangeError` thrown by `new Float32Array(size)` when the
product is negative. -/
def zeros (shape : List Int) : Except String (List ℚ × List Int) :=
  let size := shape.foldl (· * ·) 1
  if size < 0 then .error "RangeError: invalid typed array length"
  else .ok (List.replicate size.toNat 0, shape)

/-- Model of `TensorUtils.view`: at most one `-1` entry may request inference;
the inferred dimension is `data.length / knownSize` as a JS double division, and
the known product and final size check are likewise accumulated with double
multiplications (`dmul`/`ddiv`), so that rounding of a non-representable
quotient can fail the final comparison exactly as in the source.  The resolved
shape lives in `ℚ` (exact values of the computed doubles; the integer entries of
`newShape` are taken as exactly representable).  When the inferred division has
divisor zero the JS computation produces `Infinity`/`NaN` and the size
comparison always fails; this is modelled by the explicit `knownSize = 0`
failure branch. -/
def view (t : Tensor α) (newShape : List Int) : Except String (List α × List ℚ) :=
  let inferCount := (newShape.filter (fun d => d = -1)).length
  if 2 ≤ inferCount then .error "Only one dimension can be inferred"
  else
    let knownSize : ℚ :=
      ((newShape.filter (fun d => d ≠ -1)).map (fun d : Int => (d : ℚ))).foldl dmul 1
    let actualSize : Nat := t.data.length
    if inferCount = 1 ∧ knownSize = 0 then .error "Cannot reshape tensor"
    else
      let resolvedShape : List ℚ :=
        newShape.map (fun d : Int =>
          if d = -1 then ddiv (actualSize : ℚ) knownSize else (d : ℚ))
      let expectedSize : ℚ := resolvedShape.foldl dmul 1
      if expectedSize ≠ (actualSize : ℚ) then .error "Cannot reshape tensor"
      else .ok (t.data, resolvedShape)

/-- Model of `TensorUtils.transpose`: rank-3 only, axis pairs (1,2) and (2,1) only.
The source's triple write loop touches every destination index exactly once; it is
translated to the closed form over the flat destination index.  The axis pair (1,2)
maps destination `b*C*T + c*T + t` to source `b*T*C + t*C + c` and permutes the
shape; the pair (2,1) runs the same loop with source and destination roles swapped
(`newData[srcIdx] = data[dstIdx]`) and keeps the branch-selected shape `[B, T, C]`. -/
def transpose [Zero α] (t : Tensor α) (dim0 dim1 : Nat) : Except String (Tensor α) :=
  match t.shape with
  | [B, T, C] =>
    if dim0 = 1 ∧ dim1 = 2 then
      .ok ⟨(List.range (B * (C * T))).map (fun j =>
              let b := j / (C * T)
              let c := (j % (C * T)) / T
              let tt := j % (C * T) % T
              t.data.getD (b * (T * C) + (tt * C + c)) 0),
            [B, C, T]⟩
    else if dim0 = 2 ∧ dim1 = 1 then
      .ok ⟨(List.range (B * (T * C))).map (fun j =>
              let b := j / (T * C)
              let tt := (j % (T * C)) / C
              let c := j % (T * C) % C
              t.data.getD (b * (C * T) + (c * T + tt)) 0),
            [B, T, C]⟩
    else .error "Transpose dims not implemented"
  | _ => .error "Transpose currently only supports 3D tensors"

/-- Model of `TensorUtils.add` (and of `ServerTensorUtils.add`, which has the same
body): the only compatibility check is on buffer lengths, not shapes; the result
takes the shape of the first argument. -/
def add [Add α] (a b : Tensor α) : Except String (Tensor α) :=
  if a.data.length ≠ b.data.length then .error "Tensors must have same size for addition"
  else .ok ⟨List.zipWith (· + ·) a.data b.data, a.shape⟩

/-- Model of `TensorUtils.scale`: elementwise multiplication by a scalar, total. -/
def scale [Mul α] (t : Tensor α) (s : α) : Tensor α :=
  ⟨t.data.map (fun v => v * s), t.shape⟩

end TensorUtils

namespace ServerTensorUtils

/-- Model of `ServerTensorUtils.reshape` (the client `TensorUtils.reshape` has the
same logic, see `WebTensorUtils.reshape`): no inference sentinel is interpreted;
the request succeeds exactly when the literal fold product of the requested shape
equals the buffer length. -/
def reshape (t : Tensor α) (newShape : List Int) : Except String (List α × List Int) :=
  if (newShape.foldl (· * ·) 1) ≠ (t.data.length : Int) then .error "Cannot reshape tensor"
  else .ok (t.data, newShape)

end ServerTensorUtils

namespace WebTensorUtils

/-- Model of the client `TensorUtils.add`: unlike the legacy and server versions
it compares the full shapes (`a.shape.length !== b.shape.length || !a.shape.every(...)`),
i.e. succeeds exactly when the shape lists are equal. -/
def add [Add α] (a b : Tensor α) : Except String (Tensor α) :=
  if a.shape ≠ b.shape then .error "Tensor shapes must match for addition"
  else .ok ⟨List.zipWith (· + ·) a.data b.data, a.shape⟩

/-- Model of the client `TensorUtils.reshape`: same total-element-count check as the
server version, no inference sentinel. -/
def reshape (t : Tensor α) (newShape : List Int) : Except String (List α × List Int) :=
  if (newShape.foldl (· * ·) 1) ≠ (t.data.length : Int) then .error "Cannot reshape tensor"
  else .ok (t.data, newShape)

end WebTensorUtils

/-! Streaming state. -/

/-- Model of `TransformerState` from the legacy module: a per-batch-row offset
vector (constructed as `zeros([batchSize])`, hence `batchSize = offsets.length`)
and an optional execution mask.  The `device` tag is omitted. -/
structure TransformerState (α : Type) where
  offsets : List α
  execMask : Option (List Bool)
deriving Repr, DecidableEq

/-- Model of `NodeStreamingState.reset` (server): without a mask every offset is
zeroed in place (`offsets.data.fill(0)`); with a mask, the loop runs for
`i < resetMask.length && i < offsets.data.length` and zeroes offset `i` when
`resetMask[i]` is true. -/
def NodeStreamingState.reset [Zero α] (offsets : List α) (resetMask : Option (List Bool)) :
    List α :=
  match resetMask with
  | none => List.replicate offsets.length 0
  | some mask =>
    (List.range offsets.length).map (fun i =>
      if i < mask.length ∧ mask.getD i false then 0 else offsets.getD i 0)

/-- Model of `TransformerState.reset` (legacy module): the mask is a required
argument and the loop body is identical to the masked branch of the server
version. -/
def TransformerState.reset [Zero α] (offsets : List α) (resetMask : List Bool) : List α :=
  (List.range offsets.length).map (fun i =>
    if i < resetMask.length ∧ resetMask.getD i false then 0 else offsets.getD i 0)

/-! Positional embedding. -/

namespace PositionalEmbedding

/-- Model of `PositionalEmbedding.createSinEmbedding`.  The source allocates
`zeros([batchSize, seqLen, dim])` and, for each `(b, t)` and each even `d < dim`,
writes `sin(angle)` at flat index `b*seqLen*dim + t*dim + d` and `cos(angle)` at
the following index when `d + 1 < dim`, with
`angle = pos / Math.pow(maxPeriod, d / dim)` and `pos = positions.data[b*seqLen + t]`.
Every flat index is therefore written exactly once — even indices receive the sine,
odd indices the cosine of the preceding even index's angle — and the closed form
below reproduces that write pattern.  `sinf`, `cosf` and `powf` stand for the
JavaScript `Math.sin`, `Math.cos` and `Math.pow`. -/
def createSinEmbedding [Field α] (sinf cosf : α → α) (powf : α → α → α)
    (positions : Tensor α) (dim : Nat) (maxPeriod : α) : Tensor α :=
  let batchSize := positions.shape.getD 0 0
  let seqLen := positions.shape.getD 1 0
  ⟨(List.range (batchSize * (seqLen * dim))).map (fun j =>
      let b := j / (seqLen * dim)
      let t := (j % (seqLen * dim)) / dim
      let d := j % (seqLen * dim) % dim
      let pos := positions.data.getD (b * seqLen + t) 0
      if d % 2 = 0 then sinf (pos / powf maxPeriod ((d : α) / (dim : α)))
      else cosf (pos / powf maxPeriod (((d - 1 : Nat) : α) / (dim : α)))),
    [batchSize, seqLen, dim]⟩

end PositionalEmbedding

/-! Streaming transformer shell. -/

/-- Model of the condition `!state.execMask || state.execMask[i]` guarding the
offset advancement: an absent mask passes every row, a present mask passes row `i`
exactly when `execMask[i]` is `true` (an out-of-range JS read yields `undefined`,
which is falsy, hence the `getD i false`). -/
def execPass (execMask : Option (List Bool)) (i : Nat) : Bool :=
  match execMask with
  | none => true
  | some m => m.getD i false

/-- The offset-advancement loop at the end of `StreamingTransformer.forward`:
`offsets[i] += T` for every `i < offsets.length` passing `execPass`. -/
def advanceOffsets [Field α] (offsets : List α) (execMask : Option (List Bool))
    (T : Nat) : List α :=
  (List.range offsets.length).map (fun i =>
    if execPass execMask i then offsets.getD i 0 + (T : α) else offsets.getD i 0)

/-- The position tensor built by the shell (`expandedPositions` in the source):
shape `[B, T]` with `data[b*T + t] = t + offsets.data[Math.min(b, offsets.length - 1)]`.
The source also builds an aliased `positionsReshaped` view of an `arange` buffer and
writes (mostly out of bounds, hence ignored) into it, but never reads it afterwards;
that dead intermediate is not modelled. -/
def expandedPositions [Field α] (offsets : List α) (B T : Nat) : Tensor α :=
  ⟨(List.range (B * T)).map (fun j =>
      let b := j / T
      let t := j % T
      (t : α) + offsets.getD (min b (offsets.length - 1)) 0),
    [B, T]⟩

/-- Model of the `StreamingTransformer` module: the configuration fields that the
forward pass consults, plus the optionally attached streaming state.  The layer
stack consists of `numLayers` placeholder identity units exactly as in the source
constructor, so applying it leaves the tensor unchanged and only `numLayers` is
recorded. -/
structure StreamingTransformer (α : Type) where
  positionalEmbedding : String
  maxPeriod : α
  positionalScale : α
  numLayers : Nat
  streamingState : Option (TransformerState α)
deriving Repr, DecidableEq

/-- Model of `StreamingTransformer.forward` on an input of shape `[B, T, C]`
(the source destructures the first three dimensions of `x.shape`; any other rank
produces `NaN` arithmetic and is outside the model).  Steps, as in the source:
read the offsets (`zeros([1])` when no state is attached); for the `sin` and
`sin_rope` embedding kinds build the expanded position tensor, generate the
sinusoidal embedding at width `C`, scale it by `positionalScale` and `add` it to
`x` (the `add` can fail on a buffer-length mismatch); apply the identity layer
stack; finally, if a state is attached, advance every offset passing `execPass`
by `T`.  The result is returned together with the updated module. -/
def StreamingTransformer.forward [Field α] (sinf cosf : α → α) (powf : α → α → α)
    (m : StreamingTransformer α) (x : Tensor α) :
    Except String (Tensor α × StreamingTransformer α) :=
  match x.shape with
  | [B, T, C] => do
    let offsets : List α :=
      match m.streamingState with
      | none => List.replicate 1 0
      | some s => s.offsets
    let x1 ←
      if m.positionalEmbedding = "sin" ∨ m.positionalEmbedding = "sin_rope" then do
        let positions := expandedPositions offsets B T
        let posEmb := PositionalEmbedding.createSinEmbedding sinf cosf powf positions C m.maxPeriod
        let scaledPosEmb := TensorUtils.scale posEmb m.positionalScale
        TensorUtils.add x scaledPosEmb
      else pure x
    let newState :=
      m.streamingState.map (fun s =>
        { s with offsets := advanceOffsets s.offsets s.execMask T })
    .ok (x1, { m with streamingState := newState })
  | _ => .error "model: forward requires a rank-3 input"

/-! Projected transformer. -/

/-- Model of the `Linear` layer: a weight tensor of shape `[outFeatures, inFeatures]`
and an optional bias.  The source fills the weight with `Math.random()` draws; the
weight data is therefore a parameter of the model, supplied at construction. -/
structure Linear (α : Type) where
  weight : Tensor α
  bias : Option (Tensor α)
  inFeatures : Nat
  outFeatures : Nat
deriving Repr, DecidableEq

/-- Model of `Linear.forward`: the result is allocated as
`zeros([...inputShape.slice(0,-1), outFeatures])` and each entry
`result[b*outFeatures + out]` (with `b` ranging over the flattened leading
dimensions) is written once with the dot product over `inFeatures`, plus the bias
when present. -/
def Linear.fwd [Field α] (l : Linear α) (x : Tensor α) : Tensor α :=
  let lead := x.shape.dropLast
  let batchSize := lead.prod
  ⟨(List.range (batchSize * l.outFeatures)).map (fun j =>
      let b := j / l.outFeatures
      let o := j % l.outFeatures
      let s := (List.range l.inFeatures).foldl
        (fun acc inp =>
          acc + x.data.getD (b * l.inFeatures + inp) 0 * l.weight.data.getD (o * l.inFeatures + inp) 0)
        0
      match l.bias with
      | some bi => s + bi.data.getD o 0
      | none => s),
    lead ++ [l.outFeatures]⟩

/-- An output projection of the projected transformer: either the `Identity`
layer (which copies its input) or a `Linear` layer. -/
inductive OutProj (α : Type) where
  | identity : OutProj α
  | linear : Linear α → OutProj α
deriving Repr, DecidableEq

/-- Forward of an output projection; `Identity.forward` returns a copy with the
same data and shape. -/
def OutProj.fwd [Field α] (p : OutProj α) (x : Tensor α) : Tensor α :=
  match p with
  | .identity => ⟨x.data, x.shape⟩
  | .linear l => l.fwd x

/-- Model of the `ProjectedTransformer` fields: the wrapped shell, the optional
input projection, the ordered output projections and the layout flag. -/
structure ProjectedTransformer (α : Type) where
  transformer : StreamingTransformer α
  inputProj : Option (Linear α)
  outputProjs : List (OutProj α)
  convLayout : Bool
deriving Repr, DecidableEq

/-- Model of the `ProjectedTransformer` constructor: the input projection exists
exactly when `dModel ≠ inputDimension` (a bias-free `Linear(inputDimension, dModel)`),
and for each requested output dimension the projection is `Identity` when it equals
`dModel` and a bias-free `Linear(dModel, outputDimension)` otherwise.  `freshWeight
m n` stands for the `Math.random()`-filled weight buffer drawn for a
`Linear(m, n)`; the constructor's validation of the positional-embedding kind
(always satisfied by the default `sin` used in the claims) is not modelled. -/
def mkProjectedTransformer (α : Type) (inputDimension : Nat) (outputDimensions : List Nat)
    (dModel : Nat) (convLayout : Bool) (shell : StreamingTransformer α)
    (freshWeight : Nat → Nat → List α) : ProjectedTransformer α :=
  { transformer := shell
    convLayout := convLayout
    inputProj :=
      if dModel ≠ inputDimension then
        some ⟨⟨freshWeight inputDimension dModel, [dModel, inputDimension]⟩, none,
              inputDimension, dModel⟩
      else none
    outputProjs :=
      outputDimensions.map (fun od =>
        if dModel = od then .identity
        else .linear ⟨⟨freshWeight dModel od, [od, dModel]⟩, none, dModel, od⟩) }

/-- One step of the output loop of `ProjectedTransformer.forward`: apply the
projection and, in channel-first layout, transpose the result back. -/
def applyOutProj [Field α] (convLayout : Bool) (z : Tensor α) (p : OutProj α) :
    Except String (Tensor α) :=
  let y := p.fwd z
  if convLayout then TensorUtils.transpose y 1 2 else .ok y

/-- Model of `ProjectedTransformer.forward`: optional (1,2) transpose in
channel-first layout, optional input projection, shell forward, then one output
tensor per configured projection (each optionally transposed back).  The updated
shell (carrying the advanced streaming state) is returned alongside the outputs. -/
def ProjectedTransformer.fwd [Field α] (sinf cosf : α → α) (powf : α → α → α)
    (pt : ProjectedTransformer α) (x : Tensor α) :
    Except String (List (Tensor α) × StreamingTransformer α) :=
  match (if pt.convLayout then TensorUtils.transpose x 1 2 else .ok x) with
  | .error e => .error e
  | .ok x0 =>
    let x1 :=
      match pt.inputProj with
      | some l => l.fwd x0
      | none => x0
    match pt.transformer.forward sinf cosf powf x1 with
    | .error e => .error e
    | .ok (z, shell) =>
      match pt.outputProjs.mapM (applyOutProj pt.convLayout z) with
      | .error e => .error e
      | .ok ys => .ok (ys, shell)

/-! Shared lemmas about the shell forward pass. -/

/-- The scaled positional embedding buffer built by the shell for an input of
width `C` has exactly `B * T * C` entries. -/
theorem scaled_posEmb_length {α : Type} [Field α] (sinf cosf : α → α)
    (powf : α → α → α) (offsets : List α) (B T C : Nat) (maxPeriod scaleArg : α) :
    (TensorUtils.scale (PositionalEmbedding.createSinEmbedding sinf cosf powf
        (expandedPositions offsets B T) C maxPeriod) scaleArg).data.length = B * (T * C) := by
  simp [TensorUtils.scale, PositionalEmbedding.createSinEmbedding, expandedPositions]

/-- On a well-formed rank-3 input the shell forward pass always succeeds: the
positional-embedding `add` sees two buffers of equal length, the identity layer
stack preserves the tensor, and the attached state (if any) is advanced by
`advanceOffsets`.  The output keeps the input's shape and buffer length. -/
theorem forward_ok {α : Type} [Field α] (sinf cosf : α → α) (powf : α → α → α)
    (m : StreamingTransformer α) (x : Tensor α) (B T C : Nat)
    (hsh : x.shape = [B, T, C]) (hlen : x.data.length = B * (T * C)) :
    ∃ y : Tensor α,
      m.forward sinf cosf powf x =
        .ok (y, { m with streamingState := m.streamingState.map (fun s =>
            { s with offsets := advanceOffsets s.offsets s.execMask T }) }) ∧
      y.shape = [B, T, C] ∧ y.data.length = B * (T * C) := by
  obtain ⟨xd, xs⟩ := x
  simp only at hsh hlen
  subst hsh
  simp only [StreamingTransformer.forward]
  by_cases hpe : m.positionalEmbedding = "sin" ∨ m.positionalEmbedding = "sin_rope"
  · rw [if_pos hpe]
    have hplen := scaled_posEmb_length sinf cosf powf
      (match m.streamingState with
        | none => List.replicate 1 (0 : α)
        | some s => s.offsets) B T C m.maxPeriod m.positionalScale
    rw [TensorUtils.add]
    simp only [hlen, hplen, ne_eq, not_true_eq_false, if_false, Except.bind]
    refine ⟨_, rfl, rfl, ?_⟩
    simp only [List.length_zipWith, hlen, hplen, Nat.min_self]
  · rw [if_neg hpe]
    exact ⟨⟨xd, [B, T, C]⟩, rfl, rfl, hlen⟩

/-- Traversing a list with an everywhere-successful step collects the mapped
results. -/
theorem mapM_ok {ε β γ : Type} (f : β → γ) (l : List β) :
    l.mapM (fun p => (Except.ok (f p) : Except ε γ)) = .ok (l.map f) := by
  induction l with
  | nil => rfl
  | cons hd tl ih => rw [List.mapM_cons, ih]; rfl

/-- The linear layer's output: leading dimensions preserved, last dimension
replaced by `outFeatures`, buffer length equal to the product. -/
theorem Linear.fwd_shape {α : Type} [Field α] (l : Linear α) (x : Tensor α) :
    (l.fwd x).shape = x.shape.dropLast ++ [l.outFeatures] ∧
    (l.fwd x).data.length = x.shape.dropLast.prod * l.outFeatures := by
  constructor
  · rfl
  · simp [Linear.fwd]

/-! Claim theorems. -/

/-- C1: one shell forward call on a `[B, T, C]` input with an attached streaming
state returns successfully, replacing the state's offsets by `advanceOffsets`;
every offset whose row passes the execution test (`execMask` absent, or
`execMask[row]` true) grows by exactly `T`, and every offset whose row fails it
(in particular every row with `execMask[row] == false`) is left unchanged. -/
theorem C1_forward_advances_offsets {α : Type} [Field α] (sinf cosf : α → α)
    (powf : α → α → α) (m : StreamingTransformer α) (s : TransformerState α)
    (x : Tensor α) (B T C : Nat) (hstate : m.streamingState = some s)
    (hsh : x.shape = [B, T, C]) (hlen : x.data.length = B * (T * C)) :
    (∃ y, m.forward sinf cosf powf x =
        .ok (y, { m with streamingState := some ({ s with offsets := advanceOffsets s.offsets s.execMask T }) })) ∧
    (advanceOffsets s.offsets s.execMask T).length = s.offsets.length ∧
    (∀ i, i < s.offsets.length →
      (execPass s.execMask i = true →
        (advanceOffsets s.offsets s.execMask T).getD i 0 = s.offsets.getD i 0 + (T : α)) ∧
      (execPass s.execMask i = false →
        (advanceOffsets s.offsets s.execMask T).getD i 0 = s.offsets.getD i 0)) := by
  obtain ⟨y, hok, -, -⟩ := forward_ok sinf cosf powf m x B T C hsh hlen
  refine ⟨⟨y, by rw [hok, hstate]; rfl⟩, by simp [advanceOffsets], ?_⟩
  intro i hi
  constructor
  · intro hpass
    rw [advanceOffsets, getD_range_map _ _ _ _ hi, hpass]
    simp
  · intro hpass
    rw [advanceOffsets, getD_range_map _ _ _ _ hi, hpass]
    simp

/-- C1 witness: offsets `[5, 7, 9]` under mask `[true, false, true]` and a forward
call with `T = 2` become `[5 + 2, 7, 9 + 2]`; rows 0 and 2 advance by exactly 2,
row 1 (masked out) is unchanged. -/
theorem C1_witness :
    (StreamingTransformer.forward (α := ℚ) id id (fun _ _ => 1)
        ⟨"sin", 10000, 1, 2, some ⟨[5, 7, 9], some [true, false, true]⟩⟩
        ⟨List.replicate 12 0, [2, 2, 3]⟩).map Prod.snd =
      .ok ⟨"sin", 10000, 1, 2,
        some ⟨[5 + ((2 : Nat) : ℚ), 7, 9 + ((2 : Nat) : ℚ)], some [true, false, true]⟩⟩ := by
  obtain ⟨⟨y, hok⟩, -, h⟩ := C1_forward_advances_offsets (α := ℚ) id id (fun _ _ => 1)
    ⟨"sin", 10000, 1, 2, some ⟨[5, 7, 9], some [true, false, true]⟩⟩
    ⟨[5, 7, 9], some [true, false, true]⟩ ⟨List.replicate 12 0, [2, 2, 3]⟩
    2 2 3 rfl rfl (by decide)
  rw [hok]
  rfl

/-- C2: for every streaming state, `reset()` with the mask omitted sets every
offset to zero; `reset(mask)` zeroes offset `i` exactly for each index
`i < min(mask.length, batchSize)` with `mask[i] == true` and leaves every other
offset — including all indices at or beyond `mask.length` — unchanged; the
legacy `TransformerState.reset` (whose mask argument is required) behaves
identically to the masked branch.  Here `batchSize = offsets.length`, as
established by the state constructors. -/
theorem C2_reset_semantics {α : Type} [Zero α] (offsets : List α) (mask : List Bool) :
    NodeStreamingState.reset offsets none = List.replicate offsets.length 0 ∧
    (NodeStreamingState.reset offsets (some mask)).length = offsets.length ∧
    (∀ i, i < offsets.length →
      (NodeStreamingState.reset offsets (some mask)).getD i 0 =
        if i < min mask.length offsets.length ∧ mask.getD i false = true then 0
        else offsets.getD i 0) ∧
    TransformerState.reset offsets mask = NodeStreamingState.reset offsets (some mask) := by
  refine ⟨rfl, by simp [NodeStreamingState.reset], ?_, rfl⟩
  intro i hi
  rw [NodeStreamingState.reset, getD_range_map _ _ _ _ hi]
  congr 1
  simp only [eq_iff_iff]
  constructor
  · rintro ⟨h1, h2⟩
    exact ⟨by omega, h2⟩
  · rintro ⟨h1, h2⟩
    exact ⟨by omega, h2⟩

/-- C2 witness: `reset([true,false,true])` on offsets `[5,10,15]` zeroes indices 0
and 2 only; `reset()` zeroes all three. -/
theorem C2_witness :
    NodeStreamingState.reset ([5, 10, 15] : List ℚ) (some [true, false, true]) = [0, 10, 0] ∧
    NodeStreamingState.reset ([5, 10, 15] : List ℚ) none = [0, 0, 0] := by
  have h := C2_reset_semantics ([5, 10, 15] : List ℚ) [true, false, true]
  refine ⟨by decide, ?_⟩
  rw [h.1]
  decide

/-- C7: the base offset of batch row `b` in the shell's position computation is
`offsets[min(b, offsets.length - 1)]`, giving `position[b, t] = t + offset[min(b,
stateBatchSize - 1)]` when a state is attached; with no state attached the shell
uses the single-zero offsets buffer `zeros([1])`, so every row's base offset is 0
and `position[b, t] = t`. -/
theorem C7_base_offset_clamping {α : Type} [Field α] (offsets : List α) (B T b t : Nat)
    (hb : b < B) (ht : t < T) (_hoff : 0 < offsets.length) :
    (expandedPositions offsets B T).data.getD (b * T + t) 0 =
      (t : α) + offsets.getD (min b (offsets.length - 1)) 0 ∧
    (expandedPositions (List.replicate 1 (0 : α)) B T).data.getD (b * T + t) 0 = (t : α) := by
  constructor
  · rw [expandedPositions, getD_range_map _ _ _ _ (enc3_lt hb ht)]
    simp only [enc_div b ht, enc_mod b ht]
  · rw [expandedPositions, getD_range_map _ _ _ _ (enc3_lt hb ht)]
    simp only [enc_div b ht, enc_mod b ht, List.length_replicate]
    simp

/-- C7 witness: with offsets `[5, 9]` and batch size 4, row 3 is clamped to the
last offset, so position `[3, 2]` with time length 3 is `2 + 9`; with the
single-zero offsets of the stateless branch, the same slot holds `2`. -/
theorem C7_witness :
    (expandedPositions ([5, 9] : List ℚ) 4 3).data.getD 11 0 = ((2 : Nat) : ℚ) + 9 ∧
    (expandedPositions (List.replicate 1 (0 : ℚ)) 4 3).data.getD 11 0 = ((2 : Nat) : ℚ) := by
  have h := C7_base_offset_clamping ([5, 9] : List ℚ) 4 3 3 2 (by decide) (by decide) (by decide)
  constructor
  · rw [show (11 : Nat) = 3 * 3 + 2 from rfl, h.1]
    rfl
  · rw [show (11 : Nat) = 3 * 3 + 2 from rfl]
    exact h.2

/-- Pointwise description of the elementwise sum buffer. -/
theorem zipWith_add_getD {α : Type} [Add α] (l1 l2 : List α) (i : Nat) (d : α)
    (h : l1.length = l2.length) (hi : i < l1.length) :
    (List.zipWith (· + ·) l1 l2).getD i d = l1.getD i d + l2.getD i d := by
  rw [List.getD_eq_getElem _ _ (by rw [List.length_zipWith]; omega),
    List.getElem_zipWith, List.getD_eq_getElem _ _ hi, List.getD_eq_getElem _ _ (by omega)]

/-- C4 (amended): the legacy `TensorUtils.add` (and the server `ServerTensorUtils.add`,
which has the same body) checks only that the two buffers have equal length, so
tensors of different shapes but equal element count are summed elementwise, the
result taking the first argument's shape; the client `TensorUtils.add` instead
requires the shape lists to be identical; in all variants `add` on tensors of
shapes `[3]` and `[4]` fails. -/
theorem C4_add_compatibility_checks {α : Type} [Field α] (a b : Tensor α) :
    ((TensorUtils.add a b).isOk = true ↔ a.data.length = b.data.length) ∧
    (a.data.length = b.data.length →
      (TensorUtils.add a b).map Tensor.shape = .ok a.shape) ∧
    (∀ i, a.data.length = b.data.length → i < a.data.length →
      (TensorUtils.add a b).map (fun r => r.data.getD i 0) =
        .ok (a.data.getD i 0 + b.data.getD i 0)) ∧
    ((WebTensorUtils.add a b).isOk = true ↔ a.shape = b.shape) ∧
    (∀ i, a.shape = b.shape → a.data.length = b.data.length → i < a.data.length →
      (WebTensorUtils.add a b).map (fun r => r.data.getD i 0) =
        .ok (a.data.getD i 0 + b.data.getD i 0)) := by
  refine ⟨?_, ?_, ?_, ?_, ?_⟩
  · by_cases h : a.data.length = b.data.length <;>
      simp [TensorUtils.add, h, Except.isOk, Except.toBool]
  · intro h
    simp [TensorUtils.add, h, Except.map]
  · intro i h hi
    simp only [TensorUtils.add, h, ne_eq, not_true_eq_false, if_false, Except.map]
    rw [zipWith_add_getD _ _ _ _ h hi]
  · by_cases h : a.shape = b.shape <;>
      simp [WebTensorUtils.add, h, Except.isOk, Except.toBool]
  · intro i hsh h hi
    simp only [WebTensorUtils.add, hsh, ne_eq, not_true_eq_false, if_false, Except.map]
    rw [zipWith_add_getD _ _ _ _ h hi]

/-- C4 counterexample: the claim says `add` fails with `ShapeMismatch` whenever the
shapes are not identical; in the legacy and server code, adding a `[2, 3]` tensor to
a `[3, 2]` tensor succeeds, because only the buffer lengths (both 6) are compared. -/
theorem C4_counterexample :
    (TensorUtils.add (⟨[1, 1, 1, 1, 1, 1], [2, 3]⟩ : Tensor ℚ)
        ⟨[2, 2, 2, 2, 2, 2], [3, 2]⟩).isOk = true ∧
    ([2, 3] : List Nat) ≠ [3, 2] := by decide

/-- C4 witness: `add` on tensors of shapes `[3]` and `[4]` fails in both the
legacy/server variant and the client variant. -/
theorem C4_witness :
    (TensorUtils.add (⟨[0, 0, 0], [3]⟩ : Tensor ℚ) ⟨[0, 0, 0, 0], [4]⟩).isOk = false ∧
    (WebTensorUtils.add (⟨[0, 0, 0], [3]⟩ : Tensor ℚ) ⟨[0, 0, 0, 0], [4]⟩).isOk = false := by
  have h := C4_add_compatibility_checks (⟨[0, 0, 0], [3]⟩ : Tensor ℚ) ⟨[0, 0, 0, 0], [4]⟩
  constructor
  · rw [Bool.eq_false_iff]
    intro hT
    exact absurd (h.1.mp hT) (by decide)
  · rw [Bool.eq_false_iff]
    intro hT
    exact absurd (h.2.2.2.1.mp hT) (by decide)

/-- The (1,2) branch of `TensorUtils.transpose`, reduced on a literal rank-3 shape. -/
theorem transpose_12_eq {α : Type} [Zero α] (data : List α) (B T C : Nat) :
    TensorUtils.transpose ⟨data, [B, T, C]⟩ 1 2 =
      .ok ⟨(List.range (B * (C * T))).map (fun j =>
        data.getD (j / (C * T) * (T * C) + (j % (C * T) % T * C + j % (C * T) / T)) 0),
        [B, C, T]⟩ := rfl

/-- The (2,1) branch of `TensorUtils.transpose`, reduced on a literal rank-3 shape. -/
theorem transpose_21_eq {α : Type} [Zero α] (data : List α) (B T C : Nat) :
    TensorUtils.transpose ⟨data, [B, T, C]⟩ 2 1 =
      .ok ⟨(List.range (B * (T * C))).map (fun j =>
        data.getD (j / (T * C) * (C * T) + (j % (T * C) % C * T + j % (T * C) / C)) 0),
        [B, T, C]⟩ := rfl

/-- C10: for every rank-3 tensor, `transpose(t, 2, 1)` succeeds (the axis test
accepts the reversed pair), returns the branch-selected shape `[B, T, C]` — the
input shape unchanged, not the permuted `[B, C, T]` — and fills the data by
reading `newData[srcIdx] = data[dstIdx]`, i.e. by the inverse of the (1,2)
permutation: entry `(b, t, c)` of the flat `[B, T, C]` layout holds the entry at
flat index `b*C*T + c*T + t`. -/
theorem C10_transpose_reversed_axes {α : Type} [Zero α] (t : Tensor α) (B T C : Nat)
    (hsh : t.shape = [B, T, C]) (_hlen : t.data.length = B * (T * C)) :
    ((TensorUtils.transpose t 2 1).map Tensor.shape = .ok t.shape) ∧
    (∀ b tt c, b < B → tt < T → c < C →
      (TensorUtils.transpose t 2 1).map (fun u => u.data.getD (b * (T * C) + (tt * C + c)) 0) =
        .ok (t.data.getD (b * (C * T) + (c * T + tt)) 0)) := by
  obtain ⟨td, ts⟩ := t
  simp only at hsh
  subst hsh
  rw [transpose_21_eq]
  constructor
  · rfl
  · intro b tt c hb ht hc
    have hin : tt * C + c < T * C := enc3_lt ht hc
    have hj : b * (T * C) + (tt * C + c) < B * (T * C) := enc3_lt hb hin
    simp only [Except.map]
    rw [getD_range_map _ _ _ _ hj]
    simp only [enc_div b hin, enc_mod b hin, enc_div tt hc, enc_mod tt hc]

/-- C10 witness: on the tensor `[[1..6]]` of shape `[1, 2, 3]`, the reversed-axis
transpose succeeds with the shape unchanged, and entry `(0, 0, 1)` of the result
holds the input entry at flat index `0*6 + 1*2 + 0 = 2`, i.e. the value 3. -/
theorem C10_witness :
    ((TensorUtils.transpose (⟨[1, 2, 3, 4, 5, 6], [1, 2, 3]⟩ : Tensor ℚ) 2 1).map
        Tensor.shape = .ok [1, 2, 3]) ∧
    ((TensorUtils.transpose (⟨[1, 2, 3, 4, 5, 6], [1, 2, 3]⟩ : Tensor ℚ) 2 1).map
        (fun u => u.data.getD 1 0) = .ok 3) := by
  have h := C10_transpose_reversed_axes (⟨[1, 2, 3, 4, 5, 6], [1, 2, 3]⟩ : Tensor ℚ)
    1 2 3 rfl (by decide)
  refine ⟨h.1, ?_⟩
  have h2 := h.2 0 0 1 (by decide) (by decide) (by decide)
  simpa using h2

/-- A list avoiding the sentinel has no sentinel entries to filter out. -/
theorem filter_sentinel_nil {l : List Int} (h : (-1 : Int) ∉ l) :
    l.filter (fun d => d = -1) = [] := by
  rw [List.filter_eq_nil_iff]
  intro a ha
  simp only [decide_eq_true_eq]
  intro heq
  exact h (heq ▸ ha)

/-- A list avoiding the sentinel is unchanged by keeping the non-sentinel
entries. -/
theorem filter_no_sentinel {l : List Int} (h : (-1 : Int) ∉ l) :
    l.filter (fun d => d ≠ -1) = l := by
  rw [List.filter_eq_self]
  intro a ha
  simp only [decide_eq_true_eq]
  intro heq
  subst heq
  exact h ha

/-- On a sentinel-free list the shape-resolution map is just the numeric cast. -/
theorem map_resolve_no_sentinel {l : List Int} (q : ℚ) (h : (-1 : Int) ∉ l) :
    l.map (fun d : Int => if d = -1 then q else (d : ℚ)) =
      l.map (fun d : Int => (d : ℚ)) := by
  apply List.map_congr_left
  intro a ha
  have hne : a ≠ -1 := by
    intro heq
    subst heq
    exact h ha
  rw [if_neg hne]

/-- Round-to-nearest evaluates to the floor when the fractional part is below
one half. -/
theorem rneInt_eq_floor {q : ℚ} {f : ℤ} (h1 : (f : ℚ) ≤ q) (h2 : q < (f : ℚ) + 1 / 2) :
    rneInt q = f := by
  have hf : ⌊q⌋ = f := Int.floor_eq_iff.mpr ⟨h1, by linarith⟩
  rw [rneInt]
  simp only [hf]
  rw [if_pos (by linarith : q - (f : ℚ) < 1 / 2)]

/-- Integers are fixed by the tie-even rounding. -/
theorem rneInt_intCast (n : ℤ) : rneInt (n : ℚ) = n :=
  rneInt_eq_floor (le_refl _) (by norm_num)

/-- Characterisation of the binary logarithm from a bracketing pair of powers. -/
theorem int_log2_eq {q : ℚ} {e : ℤ} (hq : 0 < q) (h1 : (2 : ℚ) ^ e ≤ q)
    (h2 : q < (2 : ℚ) ^ (e + 1)) : Int.log 2 q = e := by
  have hle : e ≤ Int.log 2 q :=
    (Int.zpow_le_iff_le_log one_lt_two hq).mp (by exact_mod_cast h1)
  have hge : Int.log 2 q ≤ e := by
    by_contra hlt
    push_neg at hlt
    have hup : ((2 : ℕ) : ℚ) ^ (e + 1) ≤ q :=
      (Int.zpow_le_iff_le_log one_lt_two hq).mpr (by omega)
    have : (2 : ℚ) ^ (e + 1) ≤ q := by exact_mod_cast hup
    linarith
  omega

/-- Evaluation of `roundDouble` at a positive rational in the normal range, from
the exponent bracket and the rounded significand. -/
theorem roundDouble_pos_eval {q : ℚ} {e m : ℤ} (hq : 0 < q)
    (h1 : (2 : ℚ) ^ e ≤ q) (h2 : q < (2 : ℚ) ^ (e + 1)) (hemin : -1022 ≤ e)
    (hm : rneInt (q * (2 : ℚ) ^ (52 - e)) = m) :
    roundDouble q = (m : ℚ) * (2 : ℚ) ^ (e - 52) := by
  rw [roundDouble, if_neg (ne_of_gt hq)]
  simp only [abs_of_pos hq, int_log2_eq hq h1 h2, max_eq_left hemin, hm,
    if_neg (not_lt.mpr (le_of_lt hq)), one_mul]

/-- Nonnegative integers up to `2 ^ 53` are exactly representable as doubles. -/
theorem roundDouble_int_exact {n : ℤ} (h0 : 0 ≤ n) (h53 : n ≤ 2 ^ 53) :
    roundDouble (n : ℚ) = (n : ℚ) := by
  rcases eq_or_lt_of_le h0 with h | h
  · rw [← h]
    simp [roundDouble]
  · have hq : (0 : ℚ) < (n : ℚ) := by exact_mod_cast h
    have h1 : (2 : ℚ) ^ Int.log 2 (n : ℚ) ≤ (n : ℚ) := by
      exact_mod_cast Int.zpow_log_le_self one_lt_two hq
    have h2 : (n : ℚ) < (2 : ℚ) ^ (Int.log 2 (n : ℚ) + 1) := by
      exact_mod_cast Int.lt_zpow_succ_log_self one_lt_two (n : ℚ)
    have he0 : 0 ≤ Int.log 2 (n : ℚ) := by
      rw [Int.log_of_one_le_right _ (by exact_mod_cast h : (1 : ℚ) ≤ (n : ℚ))]
      exact Int.natCast_nonneg _
    have he53 : Int.log 2 (n : ℚ) ≤ 53 := by
      by_contra hgt
      push_neg at hgt
      have hmono : (2 : ℚ) ^ (54 : ℤ) ≤ (2 : ℚ) ^ Int.log 2 (n : ℚ) :=
        zpow_le_zpow_right₀ one_le_two (by omega)
      have hn53 : (n : ℚ) ≤ (2 : ℚ) ^ (53 : ℤ) := by
        rw [show ((53 : ℤ)) = ((53 : ℕ) : ℤ) from rfl, zpow_natCast]
        exact_mod_cast h53
      have h54 : (2 : ℚ) ^ (54 : ℤ) = 2 ^ (54 : ℕ) := by
        rw [show ((54 : ℤ)) = ((54 : ℕ) : ℤ) from rfl, zpow_natCast]
      have h53q : (2 : ℚ) ^ (53 : ℤ) = 2 ^ (53 : ℕ) := by
        rw [show ((53 : ℤ)) = ((53 : ℕ) : ℤ) from rfl, zpow_natCast]
      rw [h54] at hmono
      rw [h53q] at hn53
      have : (2 : ℚ) ^ (54 : ℕ) ≤ 2 ^ (53 : ℕ) := le_trans hmono (le_trans h1 hn53)
      norm_num at this
    set e := Int.log 2 (n : ℚ) with hedef
    rcases le_or_lt e 52 with hle | hgt
    · set k : ℕ := (52 - e).toNat with hkdef
      have h52 : ((52 : ℤ) - e) = (k : ℤ) := by omega
      have hk : (2 : ℚ) ^ (52 - e) = ((2 ^ k : ℤ) : ℚ) := by
        rw [h52, zpow_natCast]
        push_cast
        ring
      have hm : rneInt ((n : ℚ) * (2 : ℚ) ^ (52 - e)) = n * 2 ^ k := by
        rw [hk, show ((n : ℚ) * ((2 ^ k : ℤ) : ℚ)) = (((n * 2 ^ k : ℤ)) : ℚ) by
          push_cast; ring]
        exact rneInt_intCast _
      rw [roundDouble_pos_eval hq h1 h2 (by omega) hm]
      have hpow : (2 : ℚ) ^ (k : ℕ) * (2 : ℚ) ^ (e - 52) = 1 := by
        rw [← zpow_natCast (2 : ℚ) k, ← zpow_add₀ (by norm_num : (2 : ℚ) ≠ 0), ← h52,
          show ((52 : ℤ) - e + (e - 52)) = 0 by omega, zpow_zero]
      calc ((n * 2 ^ k : ℤ) : ℚ) * (2 : ℚ) ^ (e - 52)
          = (n : ℚ) * ((2 : ℚ) ^ (k : ℕ) * (2 : ℚ) ^ (e - 52)) := by push_cast; ring
        _ = (n : ℚ) := by rw [hpow, mul_one]
    · have he : e = 53 := by omega
      have hn : n = 2 ^ 53 := by
        have hlow : (2 : ℚ) ^ (53 : ℤ) ≤ (n : ℚ) := he ▸ h1
        have hcast : ((2 ^ 53 : ℤ) : ℚ) ≤ (n : ℚ) := by
          rw [show ((53 : ℤ)) = ((53 : ℕ) : ℤ) from rfl, zpow_natCast] at hlow
          exact_mod_cast hlow
        have h2n : (2 ^ 53 : ℤ) ≤ n := by exact_mod_cast hcast
        omega
      subst hn
      have hm : rneInt (((2 ^ 53 : ℤ) : ℚ) * (2 : ℚ) ^ (52 - e)) = 2 ^ 52 := by
        rw [he, show (((2 ^ 53 : ℤ) : ℚ) * (2 : ℚ) ^ ((52 : ℤ) - 53)) =
          (((2 ^ 52 : ℤ)) : ℚ) by
            rw [show ((52 : ℤ) - 53) = (-1 : ℤ) from rfl, zpow_neg]
            push_cast
            norm_num]
        exact rneInt_intCast _
      rw [roundDouble_pos_eval hq h1 h2 (by omega) hm, he]
      rw [show ((53 : ℤ) - 52) = (1 : ℤ) from rfl]
      push_cast
      norm_num

/-- Double multiplication is exact on nonnegative integer products up to
`2 ^ 53`. -/
theorem dmul_int_exact {a b : ℤ} (h0 : 0 ≤ a * b) (h53 : a * b ≤ 2 ^ 53) :
    dmul (a : ℚ) (b : ℚ) = ((a * b : ℤ) : ℚ) := by
  rw [dmul, show ((a : ℚ) * (b : ℚ)) = ((a * b : ℤ) : ℚ) by push_cast; ring]
  exact roundDouble_int_exact h0 h53

/-- Double division is exact on a nonnegative integer quotient up to `2 ^ 53`. -/
theorem ddiv_int_exact {a b : ℤ} (hd : b ∣ a) (h0 : 0 ≤ a / b) (h53 : a / b ≤ 2 ^ 53) :
    ddiv (a : ℚ) (b : ℚ) = ((a / b : ℤ) : ℚ) := by
  rw [ddiv, ← Int.cast_div_charZero hd]
  exact roundDouble_int_exact h0 h53

/-- The integer multiply-fold stays above its starting point over entries that
are at least one. -/
theorem foldl_mul_ge {l : List Int} {acc : Int} (hacc : 1 ≤ acc)
    (h : ∀ d ∈ l, 1 ≤ d) :
    acc ≤ l.foldl (· * ·) acc ∧ 1 ≤ l.foldl (· * ·) acc := by
  induction l generalizing acc with
  | nil => exact ⟨le_refl _, hacc⟩
  | cons d tl ih =>
    have hd : 1 ≤ d := h d (List.mem_cons_self _ _)
    have hstep : acc ≤ acc * d := le_mul_of_one_le_right (by omega) hd
    have hacc2 : (1 : Int) ≤ acc * d := le_trans hacc hstep
    have htl := ih hacc2 (fun x hx => h x (List.mem_cons_of_mem _ hx))
    exact ⟨le_trans hstep htl.1, htl.2⟩

/-- Zero absorbs the multiply-fold. -/
theorem foldl_mul_zero (l : List Int) : l.foldl (· * ·) 0 = 0 := by
  induction l with
  | nil => rfl
  | cons d tl ih =>
    simp only [List.foldl_cons, zero_mul]
    exact ih

/-- A prefix multiply-fold is bounded by the full fold for entries ≥ 1. -/
theorem foldl_prefix_le {l pre : List Int} {acc : Int} (hp : pre <+: l)
    (hacc : 1 ≤ acc) (h : ∀ d ∈ l, 1 ≤ d) :
    pre.foldl (· * ·) acc ≤ l.foldl (· * ·) acc := by
  obtain ⟨su, rfl⟩ := hp
  rw [List.foldl_append]
  have h1 : 1 ≤ pre.foldl (· * ·) acc :=
    (foldl_mul_ge hacc (fun d hd => h d (List.mem_append_left _ hd))).2
  exact (foldl_mul_ge h1 (fun d hd => h d (List.mem_append_right _ hd))).1

/-- A prefix of `l1 ++ a :: l2` is either a prefix of `l1` or extends `l1 ++ [a]`
by a prefix of `l2`. -/
theorem prefix_append_cons {β : Type} {a : β} {l1 l2 pre : List β}
    (h : pre <+: l1 ++ a :: l2) :
    pre <+: l1 ∨ ∃ pre2, pre = l1 ++ a :: pre2 ∧ pre2 <+: l2 := by
  induction l1 generalizing pre with
  | nil =>
    cases pre with
    | nil => exact Or.inl List.nil_prefix
    | cons x xs =>
      rw [List.nil_append, List.cons_prefix_cons] at h
      exact Or.inr ⟨xs, by rw [h.1, List.nil_append], h.2⟩
  | cons b l1h ih =>
    cases pre with
    | nil => exact Or.inl List.nil_prefix
    | cons x xs =>
      rw [List.cons_append, List.cons_prefix_cons] at h
      rcases ih h.2 with hL | ⟨pre2, hpre2, hp2⟩
      · exact Or.inl (by rw [h.1]; exact List.cons_prefix_cons.mpr ⟨rfl, hL⟩)
      · exact Or.inr ⟨pre2, by rw [h.1, hpre2, List.cons_append], hp2⟩

/-- The double multiply-fold over integer entries agrees with the exact integer
fold as long as every partial product stays within `[0, 2^53]`. -/
theorem dmul_foldl_int_exact (l : List Int) (acc : Int)
    (h : ∀ pre, pre <+: l →
      0 ≤ pre.foldl (· * ·) acc ∧ pre.foldl (· * ·) acc ≤ 2 ^ 53) :
    (l.map (fun d : Int => (d : ℚ))).foldl dmul (acc : ℚ) =
      ((l.foldl (· * ·) acc : Int) : ℚ) := by
  induction l generalizing acc with
  | nil => rfl
  | cons d tl ih =>
    have hd := h [d] ⟨tl, rfl⟩
    simp only [List.foldl_cons, List.foldl_nil] at hd
    simp only [List.map_cons, List.foldl_cons]
    rw [dmul_int_exact hd.1 hd.2]
    exact ih (acc * d) (fun pre hp => by
      obtain ⟨su, hsu⟩ := hp
      have hfull := h (d :: pre) ⟨su, by rw [List.cons_append, hsu]⟩
      simpa [List.foldl_cons] using hfull)

/-- Concrete rounding evaluation: the double quotient `1 / 49` is the dyadic
`5882252574524729 · 2⁻⁵⁸`, and multiplying it back by 49 rounds to
`9007199254740991 · 2⁻⁵³ ≠ 1`, so the reshape size check of `view` fails on a
1-element buffer with requested shape `[49, -1]` — exactly as the JS
`49 * (1 / 49) !== 1`. -/
theorem view_49_nonrepresentable :
    (TensorUtils.view (⟨[(0 : ℚ)], [1]⟩ : Tensor ℚ) [49, -1]).isOk = false := by
  have hf1 : (([49, -1] : List Int).filter (fun d => d = -1)) = [-1] := by decide
  have hf2 : (([49, -1] : List Int).filter (fun d => d ≠ -1)) = [49] := by decide
  have hk : dmul (1 : ℚ) 49 = 49 := by
    have h := dmul_int_exact (a := 1) (b := 49) (by norm_num) (by norm_num)
    norm_num at h
    exact h
  have hq : ddiv (1 : ℚ) 49 = 5882252574524729 * (2 : ℚ) ^ (-58 : ℤ) := by
    rw [ddiv, show ((1 : ℚ) / 49) = 1 / 49 from rfl]
    rw [roundDouble_pos_eval (e := -6) (m := 5882252574524729) (by norm_num)
      (by norm_num) (by norm_num) (by norm_num)
      (by apply rneInt_eq_floor <;> norm_num)]
    norm_num
  have hexp : dmul (49 : ℚ) (5882252574524729 * (2 : ℚ) ^ (-58 : ℤ)) =
      9007199254740991 * (2 : ℚ) ^ (-53 : ℤ) := by
    rw [dmul, show ((49 : ℚ) * (5882252574524729 * (2 : ℚ) ^ (-58 : ℤ))) =
      288230376151711721 * (2 : ℚ) ^ (-58 : ℤ) by rw [← mul_assoc]; norm_num]
    rw [roundDouble_pos_eval (e := -1) (m := 9007199254740991) (by norm_num)
      (by norm_num) (by norm_num) (by norm_num)
      (by apply rneInt_eq_floor <;> norm_num)]
    norm_num
  simp only [TensorUtils.view, hf1, hf2, List.length_cons, List.length_nil,
    List.map_cons, List.map_nil, List.foldl_cons, List.foldl_nil]
  norm_num [Except.isOk, Except.toBool]
  rw [hk]
  norm_num
  rw [hq, hexp]
  norm_num

/-- C5 (amended): only the legacy `view` interprets the `-1` inference sentinel.
`view` fails when two or more entries request inference, and when the known
product evaluates to zero (the JS division yields `Infinity`/`NaN` and the size
check fails).  With exactly one sentinel the inferred dimension is
`bufferLength / product(otherDims)` computed in double precision, and the
request succeeds exactly when the double product of the resolved shape
reproduces the buffer length: with positive known dimensions whose product
divides the buffer length (sizes within the `2^53` double-exact range) it
succeeds with the integral inferred dimension, while a non-representable
quotient fails the size check (a 1-element buffer with requested shape
`[49, -1]` throws).  With no sentinel, `view` succeeds in the exact regime iff
the literal product equals the buffer length.  The server and client `reshape`
interpret no sentinel at all: they succeed exactly when the literal product of
the requested shape equals the buffer length. -/
theorem C5_reshape_inference_semantics {α : Type} (t : Tensor α)
    (newShape l1 l2 : List Int) :
    (2 ≤ (newShape.filter (fun d => d = -1)).length →
      (TensorUtils.view t newShape).isOk = false) ∧
    ((-1 : Int) ∉ newShape → (∀ d ∈ newShape, 1 ≤ d) →
      newShape.foldl (· * ·) 1 ≤ 2 ^ 53 →
      (newShape.foldl (· * ·) 1 = (t.data.length : Int) →
        TensorUtils.view t newShape =
          .ok (t.data, newShape.map (fun d : Int => (d : ℚ)))) ∧
      (newShape.foldl (· * ·) 1 ≠ (t.data.length : Int) →
        (TensorUtils.view t newShape).isOk = false)) ∧
    ((-1 : Int) ∉ l1 → (-1 : Int) ∉ l2 → (∀ d ∈ l1 ++ l2, 1 ≤ d) →
      (l1 ++ l2).foldl (· * ·) 1 ≤ 2 ^ 53 → (t.data.length : Int) ≤ 2 ^ 53 →
      (l1 ++ l2).foldl (· * ·) 1 ∣ (t.data.length : Int) →
      TensorUtils.view t (l1 ++ -1 :: l2) =
        .ok (t.data, l1.map (fun d : Int => (d : ℚ)) ++
          (((t.data.length : Int) / (l1 ++ l2).foldl (· * ·) 1 : Int) : ℚ) ::
          l2.map (fun d : Int => (d : ℚ)))) ∧
    ((-1 : Int) ∉ l1 → (-1 : Int) ∉ l2 →
      ((l1 ++ l2).map (fun d : Int => (d : ℚ))).foldl dmul 1 = 0 →
      (TensorUtils.view t (l1 ++ -1 :: l2)).isOk = false) ∧
    (TensorUtils.view (⟨[(0 : ℚ)], [1]⟩ : Tensor ℚ) [49, -1]).isOk = false ∧
    ((ServerTensorUtils.reshape t newShape).isOk = true ↔
      newShape.foldl (· * ·) 1 = (t.data.length : Int)) ∧
    WebTensorUtils.reshape t newShape = ServerTensorUtils.reshape t newShape := by
  refine ⟨?_, ?_, ?_, ?_, view_49_nonrepresentable, ?_, rfl⟩
  · intro h2
    simp only [TensorUtils.view]
    rw [if_pos h2]
    rfl
  · intro hno hpos hbound
    have hf0 := filter_sentinel_nil hno
    have hf1 := filter_no_sentinel hno
    have hpre : ∀ pre, pre <+: newShape →
        0 ≤ pre.foldl (· * ·) (1 : Int) ∧ pre.foldl (· * ·) (1 : Int) ≤ 2 ^ 53 := by
      intro pre hp
      have h1p : 1 ≤ pre.foldl (· * ·) (1 : Int) :=
        (foldl_mul_ge (le_refl 1) (fun d hd => hpos d (hp.subset hd))).2
      exact ⟨by omega, le_trans (foldl_prefix_le hp (le_refl 1) hpos) hbound⟩
    have hexp : (newShape.map (fun d : Int => (d : ℚ))).foldl dmul 1 =
        ((newShape.foldl (· * ·) 1 : Int) : ℚ) := by
      have h := dmul_foldl_int_exact newShape 1 hpre
      rwa [Int.cast_one] at h
    constructor
    · intro hprod
      simp only [TensorUtils.view, hf0, hf1, List.length_nil]
      rw [if_neg (by omega : ¬(2 ≤ 0)),
        if_neg (fun hc => absurd hc.1 (by omega)),
        map_resolve_no_sentinel _ hno, hexp, hprod,
        if_neg (fun hne => hne (by push_cast; rfl))]
    · intro hprod
      simp only [TensorUtils.view, hf0, hf1, List.length_nil]
      rw [if_neg (by omega : ¬(2 ≤ 0)),
        if_neg (fun hc => absurd hc.1 (by omega)),
        map_resolve_no_sentinel _ hno, hexp,
        if_pos (fun hq => hprod (by exact_mod_cast hq))]
      rfl
  · intro h1 h2 hpos hk53 hlen53 hdvd
    have hfc : (l1 ++ -1 :: l2).filter (fun d => d = -1) = [-1] := by
      rw [List.filter_append, filter_sentinel_nil h1, List.filter_cons,
        if_pos (by decide), filter_sentinel_nil h2]
      rfl
    have hfk : (l1 ++ -1 :: l2).filter (fun d => d ≠ -1) = l1 ++ l2 := by
      rw [List.filter_append, filter_no_sentinel h1, List.filter_cons,
        if_neg (by decide), filter_no_sentinel h2]
    have hk1 : 1 ≤ (l1 ++ l2).foldl (· * ·) (1 : Int) :=
      (foldl_mul_ge (le_refl 1) hpos).2
    have hpreK : ∀ pre, pre <+: l1 ++ l2 →
        0 ≤ pre.foldl (· * ·) (1 : Int) ∧ pre.foldl (· * ·) (1 : Int) ≤ 2 ^ 53 := by
      intro pre hp
      have h1p : 1 ≤ pre.foldl (· * ·) (1 : Int) :=
        (foldl_mul_ge (le_refl 1) (fun d hd => hpos d (hp.subset hd))).2
      exact ⟨by omega, le_trans (foldl_prefix_le hp (le_refl 1) hpos) hk53⟩
    have hks : ((l1 ++ l2).map (fun d : Int => (d : ℚ))).foldl dmul 1 =
        (((l1 ++ l2).foldl (· * ·) 1 : Int) : ℚ) := by
      have h := dmul_foldl_int_exact (l1 ++ l2) 1 hpreK
      rwa [Int.cast_one] at h
    set k : Int := (l1 ++ l2).foldl (· * ·) 1 with hkdef
    set q : Int := (t.data.length : Int) / k with hqdef
    have hlen0 : (0 : Int) ≤ (t.data.length : Int) := Int.natCast_nonneg _
    have hq0 : 0 ≤ q := by
      rw [hqdef]
      exact Int.ediv_nonneg hlen0 (by omega)
    have hq53 : q ≤ 2 ^ 53 := by
      rw [hqdef]
      exact le_trans (Int.ediv_le_self _ hlen0) hlen53
    have hkq : k * q = (t.data.length : Int) := by
      rw [hqdef]
      exact Int.mul_ediv_cancel' hdvd
    have hdd : ddiv ((t.data.length : Nat) : ℚ) ((k : Int) : ℚ) = ((q : Int) : ℚ) := by
      rw [show (((t.data.length : Nat)) : ℚ) = (((t.data.length : Int)) : ℚ) by
        push_cast; rfl, hqdef]
      exact ddiv_int_exact hdvd (hqdef ▸ hq0) (hqdef ▸ hq53)
    have hposl1 : ∀ d ∈ l1, 1 ≤ d := fun d hd => hpos d (List.mem_append_left _ hd)
    have hposl2 : ∀ d ∈ l2, 1 ≤ d := fun d hd => hpos d (List.mem_append_right _ hd)
    have htot : (l1 ++ q :: l2).foldl (· * ·) (1 : Int) = (t.data.length : Int) := by
      rw [foldl_mul_eq_prod, one_mul, List.prod_append, List.prod_cons]
      have hkp : k = l1.prod * l2.prod := by
        rw [hkdef, foldl_mul_eq_prod, one_mul, List.prod_append]
      calc l1.prod * (q * l2.prod) = l1.prod * l2.prod * q := by ring
        _ = k * q := by rw [← hkp]
        _ = _ := hkq
    have hpreE : ∀ pre, pre <+: l1 ++ q :: l2 →
        0 ≤ pre.foldl (· * ·) (1 : Int) ∧ pre.foldl (· * ·) (1 : Int) ≤ 2 ^ 53 := by
      intro pre hp
      rcases prefix_append_cons hp with hL | ⟨pre2, rfl, hp2⟩
      · have h1p : 1 ≤ pre.foldl (· * ·) (1 : Int) :=
          (foldl_mul_ge (le_refl 1) (fun d hd => hposl1 d (hL.subset hd))).2
        have hle1 : pre.foldl (· * ·) (1 : Int) ≤ l1.foldl (· * ·) 1 :=
          foldl_prefix_le hL (le_refl 1) hposl1
        have hl1k : l1.foldl (· * ·) (1 : Int) ≤ k := by
          rw [hkdef]
          exact foldl_prefix_le ⟨l2, rfl⟩ (le_refl 1) hpos
        exact ⟨by omega, by omega⟩
      · rw [List.foldl_append, List.foldl_cons]
        rcases eq_or_lt_of_le hq0 with hq0h | hq1
        · rw [← hq0h, mul_zero, foldl_mul_zero]
          norm_num
        · have hl1ge : 1 ≤ l1.foldl (· * ·) (1 : Int) :=
            (foldl_mul_ge (le_refl 1) hposl1).2
          have hacc1 : 1 ≤ l1.foldl (· * ·) (1 : Int) * q := by nlinarith
          have hlow : 1 ≤ pre2.foldl (· * ·) (l1.foldl (· * ·) (1 : Int) * q) :=
            (foldl_mul_ge hacc1 (fun d hd => hposl2 d (hp2.subset hd))).2
          have hup : pre2.foldl (· * ·) (l1.foldl (· * ·) (1 : Int) * q) ≤
              l2.foldl (· * ·) (l1.foldl (· * ·) (1 : Int) * q) :=
            foldl_prefix_le hp2 hacc1 hposl2
          have htot2 : l2.foldl (· * ·) (l1.foldl (· * ·) (1 : Int) * q) =
              (t.data.length : Int) := by
            rw [← htot, List.foldl_append, List.foldl_cons]
          rw [htot2] at hup
          exact ⟨by omega, by omega⟩
    have hexpE : ((l1 ++ q :: l2).map (fun d : Int => (d : ℚ))).foldl dmul 1 =
        (((l1 ++ q :: l2).foldl (· * ·) 1 : Int) : ℚ) := by
      have h := dmul_foldl_int_exact (l1 ++ q :: l2) 1 hpreE
      rwa [Int.cast_one] at h
    simp only [TensorUtils.view, hfc, hfk, List.length_cons, List.length_nil]
    rw [if_neg (by omega : ¬(2 ≤ 0 + 1)), hks]
    rw [if_neg (fun hc => by
      have h0 : k = 0 := by exact_mod_cast hc.2
      omega)]
    rw [List.map_append, List.map_cons, if_pos rfl, map_resolve_no_sentinel _ h1,
      map_resolve_no_sentinel _ h2, hdd]
    rw [show (l1.map (fun d : Int => (d : ℚ)) ++ ((q : Int) : ℚ) ::
        l2.map (fun d : Int => (d : ℚ)))
      = (l1 ++ q :: l2).map (fun d : Int => (d : ℚ)) by
        rw [List.map_append, List.map_cons]]
    rw [hexpE, htot, if_neg (fun hne => hne (by norm_cast))]
  · intro h1 h2 hks0
    have hfc : (l1 ++ -1 :: l2).filter (fun d => d = -1) = [-1] := by
      rw [List.filter_append, filter_sentinel_nil h1, List.filter_cons,
        if_pos (by decide), filter_sentinel_nil h2]
      rfl
    have hfk : (l1 ++ -1 :: l2).filter (fun d => d ≠ -1) = l1 ++ l2 := by
      rw [List.filter_append, filter_no_sentinel h1, List.filter_cons,
        if_neg (by decide), filter_no_sentinel h2]
    simp only [TensorUtils.view, hfc, hfk, List.length_cons, List.length_nil]
    rw [if_neg (by omega : ¬(2 ≤ 0 + 1)), if_pos ⟨trivial, hks0⟩]
    rfl
  · by_cases h : newShape.foldl (· * ·) 1 = (t.data.length : Int) <;>
      simp [ServerTensorUtils.reshape, h, Except.isOk, Except.toBool]

/-- C5 counterexample: the claim says `reshape` resolves a single `-1` entry by
inference, so on a 6-element buffer `reshape(t, [2, -1])` would succeed with
shape `[2, 3]`; the server implementation (and the identical client one)
supports no sentinel and fails on that input, while the legacy `view` succeeds
on the very same input (the quotient `6 / 2` is exactly representable). -/
theorem C5_counterexample :
    (ServerTensorUtils.reshape (⟨List.replicate 6 (0 : ℚ), [6]⟩ : Tensor ℚ)
      [2, -1]).isOk = false ∧
    (TensorUtils.view (⟨List.replicate 6 (0 : ℚ), [6]⟩ : Tensor ℚ) [2, -1]).isOk = true := by
  constructor
  · rfl
  · have hf1 : (([2, -1] : List Int).filter (fun d => d = -1)) = [-1] := by decide
    have hf2 : (([2, -1] : List Int).filter (fun d => d ≠ -1)) = [2] := by decide
    have hk : dmul (1 : ℚ) 2 = 2 := by
      have h := dmul_int_exact (a := 1) (b := 2) (by norm_num) (by norm_num)
      norm_num at h
      exact h
    have hq : ddiv (6 : ℚ) 2 = 3 := by
      have h := ddiv_int_exact (a := 6) (b := 2) (by norm_num) (by norm_num) (by norm_num)
      norm_num at h
      exact h
    have hexp : dmul (2 : ℚ) 3 = 6 := by
      have h := dmul_int_exact (a := 2) (b := 3) (by norm_num) (by norm_num)
      norm_num at h
      exact h
    simp only [TensorUtils.view, hf1, hf2, List.length_cons, List.length_nil,
      List.length_replicate, List.map_cons, List.map_nil, List.foldl_cons,
      List.foldl_nil]
    norm_num [hk, hq, hexp, Except.isOk, Except.toBool]

/-- C5 witness: on a 6-element buffer, `view` resolves `[2, -1]` to the shape
`[2, 3]` (the inferred dimension is the exact integer quotient `6 / 2`), and the
server `reshape` accepts the already-resolved `[2, 3]`. -/
theorem C5_witness :
    TensorUtils.view (⟨List.replicate 6 (0 : ℚ), [6]⟩ : Tensor ℚ) ([2] ++ -1 :: []) =
      .ok (List.replicate 6 (0 : ℚ), [2].map (fun d : Int => (d : ℚ)) ++
        ((((List.replicate 6 (0 : ℚ)).length : Int) /
          ([2] ++ ([] : List Int)).foldl (· * ·) 1 : Int) : ℚ) ::
        ([] : List Int).map (fun d : Int => (d : ℚ))) ∧
    (ServerTensorUtils.reshape (⟨List.replicate 6 (0 : ℚ), [6]⟩ : Tensor ℚ)
      [2, 3]).isOk = true := by
  have h := C5_reshape_inference_semantics (⟨List.replicate 6 (0 : ℚ), [6]⟩ : Tensor ℚ)
    [2, 3] [2] []
  refine ⟨?_, ?_⟩
  · exact h.2.2.1 (by decide) (by decide) (by decide) (by decide) (by decide) (by decide)
  · exact h.2.2.2.2.2.1.mpr (by decide)

/-- C6: applying the (1,2) transpose twice to a rank-3 tensor returns a tensor
equal to the original in both shape and element data. -/
theorem C6_transpose_round_trip {α : Type} [Zero α] (t : Tensor α) (B T C : Nat)
    (hsh : t.shape = [B, T, C]) (hlen : t.data.length = B * (T * C)) :
    (TensorUtils.transpose t 1 2).bind (fun u => TensorUtils.transpose u 1 2) = .ok t := by
  obtain ⟨td, ts⟩ := t
  simp only at hsh hlen
  subst hsh
  rw [transpose_12_eq]
  simp only [Except.bind]
  rw [transpose_12_eq]
  refine congrArg Except.ok ?_
  refine congrArg (fun d => Tensor.mk d [B, T, C]) ?_
  apply List.ext_getElem
  · simpa using hlen.symm
  · intro j hj1 hj2
    have hj : j < B * (T * C) := by simpa using hj1
    have hBTC : 0 < B * (T * C) := lt_of_le_of_lt (Nat.zero_le j) hj
    have hTC : 0 < T * C := by
      rcases Nat.eq_zero_or_pos (T * C) with h0 | h0
      · rw [h0, Nat.mul_zero] at hBTC
        exact absurd hBTC (lt_irrefl 0)
      · exact h0
    have hC : 0 < C := by
      rcases Nat.eq_zero_or_pos C with h0 | h0
      · rw [h0, Nat.mul_zero] at hTC
        exact absurd hTC (lt_irrefl 0)
      · exact h0
    have hb0 : j / (T * C) < B := (Nat.div_lt_iff_lt_mul hTC).mpr hj
    have hr : j % (T * C) < T * C := Nat.mod_lt j hTC
    have hp : j % (T * C) / C < T := (Nat.div_lt_iff_lt_mul hC).mpr hr
    have hq : j % (T * C) % C < C := Nat.mod_lt _ hC
    set b0 := j / (T * C) with hb0def
    set p := j % (T * C) / C with hpdef
    set q := j % (T * C) % C with hqdef
    simp only [List.getElem_map, List.getElem_range]
    have hk : q * T + p < C * T := enc3_lt hq hp
    rw [getD_range_map _ _ _ _ (enc3_lt hb0 hk)]
    simp only [enc_div b0 hk, enc_mod b0 hk, enc_div q hp, enc_mod q hp]
    have hidx : b0 * (T * C) + (p * C + q) = j := by
      have h1 : T * C * b0 + j % (T * C) = j := Nat.div_add_mod j (T * C)
      have h2 : C * p + q = j % (T * C) := Nat.div_add_mod (j % (T * C)) C
      calc b0 * (T * C) + (p * C + q) = T * C * b0 + (C * p + q) := by ring
      _ = T * C * b0 + j % (T * C) := by rw [h2]
      _ = j := h1
    rw [hidx]
    exact List.getD_eq_getElem td 0 (by omega)

/-- C6 witness: the (1,2) round trip on the concrete tensor `[[1..6]]` of shape
`[1, 2, 3]` returns the original tensor. -/
theorem C6_witness :
    (TensorUtils.transpose (⟨[1, 2, 3, 4, 5, 6], [1, 2, 3]⟩ : Tensor ℚ) 1 2).bind
      (fun u => TensorUtils.transpose u 1 2) =
      .ok (⟨[1, 2, 3, 4, 5, 6], [1, 2, 3]⟩ : Tensor ℚ) :=
  C6_transpose_round_trip _ 1 2 3 rfl (by decide)

/-- C3 (amended): for a position tensor of shape `[batch, time]` the generator
returns shape `[batch, time, dim]` where, for each position `p` and each index
`d < dim`, an even `d` holds `sin(p / maxPeriod^(d/dim))` and an odd `d` holds
`cos(p / maxPeriod^((d-1)/dim))` (the cosine partner of the preceding even
index).  Every index is written; in particular, when `dim` is odd the final
(even) slot holds its sine value and no slot is left at zero. -/
theorem C3_sin_embedding_entries {α : Type} [Field α] (sinf cosf : α → α)
    (powf : α → α → α) (positions : Tensor α) (batch seq dim : Nat) (maxPeriod : α)
    (hsh : positions.shape = [batch, seq]) (b t : Nat) (hb : b < batch) (ht : t < seq) :
    (PositionalEmbedding.createSinEmbedding sinf cosf powf positions dim maxPeriod).shape =
      [batch, seq, dim] ∧
    (∀ d, d < dim →
      (PositionalEmbedding.createSinEmbedding sinf cosf powf positions dim
          maxPeriod).data.getD (b * (seq * dim) + (t * dim + d)) 0 =
        if d % 2 = 0 then
          sinf (positions.data.getD (b * seq + t) 0 / powf maxPeriod ((d : α) / (dim : α)))
        else
          cosf (positions.data.getD (b * seq + t) 0 /
            powf maxPeriod (((d - 1 : Nat) : α) / (dim : α)))) := by
  constructor
  · simp [PositionalEmbedding.createSinEmbedding, hsh]
  · intro d hd
    have hin : t * dim + d < seq * dim := enc3_lt ht hd
    have hj : b * (seq * dim) + (t * dim + d) < batch * (seq * dim) := enc3_lt hb hin
    rw [PositionalEmbedding.createSinEmbedding]
    simp only [hsh, List.getD_cons_zero, List.getD_cons_succ]
    rw [getD_range_map _ _ _ _ hj]
    simp only [enc_div b hin, enc_mod b hin, enc_div t hd, enc_mod t hd]

/-- C3 counterexample: the claim leaves "the final odd slot at zero when dim is
odd"; with `dim = 1` (odd) and position value 1, the code writes
`sin(1 / 10000^(0/1)) = sin 1 ≠ 0` into the single (final) slot, so no slot of
the returned embedding is zero. -/
theorem C3_counterexample :
    (PositionalEmbedding.createSinEmbedding Real.sin Real.cos (fun a b => a ^ b)
        (⟨[1], [1, 1]⟩ : Tensor ℝ) 1 10000).data.getD 0 0 ≠ 0 := by
  have hred : (PositionalEmbedding.createSinEmbedding Real.sin Real.cos (fun a b => a ^ b)
      (⟨[1], [1, 1]⟩ : Tensor ℝ) 1 10000).data.getD 0 0 = Real.sin 1 := by
    rw [PositionalEmbedding.createSinEmbedding]
    norm_num [Real.rpow_zero]
  rw [hred]
  have hpi : (1 : ℝ) < Real.pi := by linarith [Real.pi_gt_three]
  exact ne_of_gt (Real.sin_pos_of_pos_of_lt_pi one_pos hpi)

/-- C3 witness: at `dim = 2`, the odd slot `d = 1` of the embedding holds the
cosine branch value (here with placeholder `cosf = id` and `powf` constantly 1,
the position value divided by one). -/
theorem C3_witness :
    (PositionalEmbedding.createSinEmbedding (α := ℚ) id id (fun _ _ => 1)
        ⟨[1], [1, 1]⟩ 2 10000).shape = [1, 1, 2] ∧
    (PositionalEmbedding.createSinEmbedding (α := ℚ) id id (fun _ _ => 1)
        ⟨[1], [1, 1]⟩ 2 10000).data.getD 1 0 = 1 := by
  have h := C3_sin_embedding_entries (α := ℚ) id id (fun _ _ => 1) ⟨[1], [1, 1]⟩
    1 1 2 10000 rfl 0 0 (by decide) (by decide)
  refine ⟨h.1, ?_⟩
  have h2 := h.2 1 (by decide)
  simpa using h2

/-- Shape of the tensor returned by one output projection of the wrapper. -/
theorem outProj_shape {α : Type} [Field α] (dModel od : Nat) (w : List α) (z : Tensor α)
    (B T C : Nat) (hz : z.shape = [B, T, C]) (hC : dModel = od → C = od) :
    ((if dModel = od then OutProj.identity
      else OutProj.linear ⟨⟨w, [od, dModel]⟩, none, dModel, od⟩).fwd z).shape = [B, T, od] := by
  by_cases h : dModel = od
  · rw [if_pos h, OutProj.fwd]
    rw [hz, hC h]
  · rw [if_neg h, OutProj.fwd]
    rw [(Linear.fwd_shape _ z).1, hz]
    rfl

/-- C9: `ProjectedTransformer.forward` (sequence-first layout) returns one output
tensor per configured output width, in configuration order: the mapped shapes are
exactly `outputDimensions.map (fun od => [B, T, od])`; the constructor installs
the identity projection at every position whose output width equals `dModel`. -/
theorem C9_projected_forward_outputs {α : Type} [Field α] (sinf cosf : α → α)
    (powf : α → α → α) (shell : StreamingTransformer α)
    (freshWeight : Nat → Nat → List α) (inputDimension dModel : Nat)
    (outputDimensions : List Nat) (x : Tensor α) (B T : Nat)
    (hsh : x.shape = [B, T, inputDimension])
    (hlen : x.data.length = B * (T * inputDimension)) :
    ((mkProjectedTransformer α inputDimension outputDimensions dModel false shell
        freshWeight).fwd sinf cosf powf x).map (fun r => r.1.map Tensor.shape) =
      .ok (outputDimensions.map (fun od => [B, T, od])) ∧
    (mkProjectedTransformer α inputDimension outputDimensions dModel false shell
        freshWeight).outputProjs.length = outputDimensions.length ∧
    (∀ i (h1 : i < outputDimensions.length)
        (h2 : i < (mkProjectedTransformer α inputDimension outputDimensions dModel false
          shell freshWeight).outputProjs.length),
      outputDimensions.get ⟨i, h1⟩ = dModel →
        (mkProjectedTransformer α inputDimension outputDimensions dModel false shell
          freshWeight).outputProjs.get ⟨i, h2⟩ = OutProj.identity) := by
  refine ⟨?_, by simp [mkProjectedTransformer], ?_⟩
  · by_cases hdim : dModel = inputDimension
    · have hne : ¬dModel ≠ inputDimension := not_not_intro hdim
      obtain ⟨z, hok, hzsh, -⟩ :=
        forward_ok sinf cosf powf shell x B T inputDimension hsh hlen
      simp only [ProjectedTransformer.fwd, mkProjectedTransformer, if_neg hne,
        Bool.false_eq_true, if_false, hok]
      have happly : applyOutProj (α := α) false z = fun p => .ok (p.fwd z) :=
        funext fun p => rfl
      rw [happly, mapM_ok]
      simp only [Except.map, List.map_map]
      refine congrArg Except.ok (List.map_congr_left ?_)
      intro od _
      exact outProj_shape dModel od (freshWeight dModel od) z B T inputDimension hzsh
        (fun h => by rw [← h, hdim])
    · have hx1sh :
          ((⟨⟨freshWeight inputDimension dModel, [dModel, inputDimension]⟩, none,
            inputDimension, dModel⟩ : Linear α).fwd x).shape = [B, T, dModel] := by
        rw [(Linear.fwd_shape _ x).1, hsh]
        rfl
      have hx1len :
          ((⟨⟨freshWeight inputDimension dModel, [dModel, inputDimension]⟩, none,
            inputDimension, dModel⟩ : Linear α).fwd x).data.length = B * (T * dModel) := by
        rw [(Linear.fwd_shape _ x).2, hsh]
        simp [Nat.mul_assoc]
      obtain ⟨z, hok, hzsh, -⟩ := forward_ok sinf cosf powf shell _ B T dModel hx1sh hx1len
      simp only [ProjectedTransformer.fwd, mkProjectedTransformer, if_pos hdim,
        Bool.false_eq_true, if_false, hok]
      have happly : applyOutProj (α := α) false z = fun p => .ok (p.fwd z) :=
        funext fun p => rfl
      rw [happly, mapM_ok]
      simp only [Except.map, List.map_map]
      refine congrArg Except.ok (List.map_congr_left ?_)
      intro od _
      exact outProj_shape dModel od (freshWeight dModel od) z B T dModel hzsh
        (fun h => by rw [h])
  · intro i h1 h2 hod
    have hod' : outputDimensions[i] = dModel := by
      simpa [List.get_eq_getElem] using hod
    simp only [mkProjectedTransformer, List.get_eq_getElem, List.getElem_map]
    rw [if_pos hod'.symm]

/-- C9 witness: the projected transformer with `inputWidth = 6`,
`outputWidths = [4, 8]`, `modelWidth = 4` on an input of shape `[2, 3, 6]`
returns exactly two tensors, of shapes `[2, 3, 4]` and `[2, 3, 8]`. -/
theorem C9_witness :
    (((mkProjectedTransformer ℚ 6 [4, 8] 4 false ⟨"sin", 10000, 1, 2, none⟩
        (fun m n => List.replicate (m * n) 0)).fwd id id (fun _ _ => 1)
        ⟨List.replicate 36 0, [2, 3, 6]⟩).map (fun r => r.1.map Tensor.shape)) =
      .ok [[2, 3, 4], [2, 3, 8]] := by
  have h := (C9_projected_forward_outputs (α := ℚ) id id (fun _ _ => 1)
    ⟨"sin", 10000, 1, 2, none⟩ (fun m n => List.replicate (m * n) 0) 6 4 [4, 8]
    ⟨List.replicate 36 0, [2, 3, 6]⟩ 2 3 rfl (by decide)).1
  rw [h]
  rfl

/-- C8 (amended): `zeros(shape)` performs no per-dimension validation.  It returns
an all-zero buffer of `product(shape)` elements whenever the fold product of the
requested dimensions is non-negative — including shapes with zero or negative
dimensions — and fails (the typed-array allocation error) exactly when the product
is negative. -/
theorem C8_zeros_no_dimension_validation (shape : List Int) :
    ((0 : Int) ≤ shape.foldl (· * ·) 1 →
      TensorUtils.zeros shape =
        .ok (List.replicate (shape.foldl (· * ·) 1).toNat 0, shape)) ∧
    (shape.foldl (· * ·) 1 < 0 → (TensorUtils.zeros shape).isOk = false) := by
  constructor
  · intro h
    rw [TensorUtils.zeros]
    simp only [not_lt.mpr h, if_false]
  · intro h
    rw [TensorUtils.zeros]
    simp only [h, if_true]
    rfl

/-- C8 counterexample: the claim says `zeros` fails with `InvalidShape` whenever a
dimension is `≤ 0`; in the code `zeros([-2, -3])` succeeds (the fold product is 6,
so a 6-element zero buffer is allocated and the negative shape is kept verbatim). -/
theorem C8_counterexample :
    (TensorUtils.zeros [-2, -3]).isOk = true ∧ (-2 : Int) ≤ 0 := by decide

/-- C8 witness: a positive shape request returns the all-zero tensor. -/
theorem C8_witness :
    TensorUtils.zeros [2, 3] = .ok (List.replicate 6 0, [2, 3]) := by
  have h := (C8_zeros_no_dimension_validation [2, 3]).1 (by decide)
  rw [h]
  rfl

end Moshi
